import Mathlib

/-!
Verification of the chroma-mcp ingestion pipeline (`src/chroma_mcp/server.py`).

Python strings are modelled as `List Char`; Python integers as `Int` where a
sign check matters and as `Nat` elsewhere.  Fallible code returns `Except`.
-/

namespace ChromaMcp

/-- A text is a list of characters (Python `str`). -/
abbrev Text := List Char

/-! ### `chunk_text` (server.py 655-670)

The Python loop keeps a cursor `start`; each iteration emits
`text[start:min(start+chunk_size, len(text))]`, stops when the emitted chunk
reaches the end, and otherwise advances the cursor to `end - overlap`.
The Lean embedding uses fuel for the `while`; `text.length + 1` units of fuel
are enough whenever `overlap < size` (the cursor then advances by at least one
each iteration), which is the regime of every claim about the loop body. -/

/-- One fuel-indexed unfolding of the `while start < text_length` loop of
`chunk_text`. -/
def chunkAux (text : Text) (size olap : Nat) : Nat → Nat → List Text
  | 0, _ => []
  | fuel + 1, start =>
    if start < text.length then
      let e := min (start + size) text.length
      let piece := (text.drop start).take (e - start)
      if e = text.length then [piece]
      else piece :: chunkAux text size olap fuel (e - olap)
    else []

/-- The loop of `chunk_text` started at cursor 0 with enough fuel. -/
def chunkCore (text : Text) (size olap : Nat) : List Text :=
  chunkAux text size olap (text.length + 1) 0

/-- `chunk_text(text, chunk_size, overlap)` including its parameter
validation (`chunk_size <= 0` and `overlap < 0` raise `ValueError`). -/
def chunk_text (text : Text) (size olap : Int) : Except String (List Text) :=
  if size ≤ 0 then .error "chunk_size must be positive"
  else if olap < 0 then .error "overlap must be non-negative"
  else .ok (chunkCore text size.toNat olap.toNat)

/-- Concatenate pieces, dropping the leading `olap` characters of every piece
after the first (the reconstruction reading used by the specification). -/
def reassemble (olap : Nat) : List Text → Text
  | [] => []
  | c :: cs => c ++ (cs.map (List.drop olap)).flatten

/-! ### Loop invariants of `chunkAux` -/

theorem getLast?_cons_ne_nil {α : Type} (a : α) {l : List α} (h : l ≠ []) :
    (a :: l).getLast? = l.getLast? := by
  cases l with
  | nil => exact absurd rfl h
  | cons b t => rfl

theorem dropLast_cons_ne_nil {α : Type} (a : α) {l : List α} (h : l ≠ []) :
    (a :: l).dropLast = a :: l.dropLast := by
  cases l with
  | nil => exact absurd rfl h
  | cons b t => rfl

theorem chunkAux_ne_nil (text : Text) (size olap : Nat) (fuel start : Nat)
    (hstart : start < text.length) (hfuel : text.length - start ≤ fuel) :
    chunkAux text size olap fuel start ≠ [] := by
  cases fuel with
  | zero => omega
  | succ fuel =>
    simp only [chunkAux, if_pos hstart]
    split <;> simp

theorem chunkAux_flatten_drop (text : Text) (size olap : Nat)
    (hsize : 0 < size) (holap : olap < size) :
    ∀ fuel start, start < text.length → text.length - start ≤ fuel →
      ((chunkAux text size olap fuel start).map (List.drop olap)).flatten
        = text.drop (start + olap) := by
  intro fuel
  induction fuel with
  | zero => intro start h1 h2; omega
  | succ fuel ih =>
    intro start h1 h2
    simp only [chunkAux, if_pos h1]
    by_cases he : min (start + size) text.length = text.length
    · rw [if_pos he]
      have hpiece : (text.drop start).take (min (start + size) text.length - start)
          = text.drop start := by
        apply List.take_of_length_le
        simp
        omega
      rw [List.map_cons, List.map_nil, List.flatten_cons, List.flatten_nil,
        List.append_nil, hpiece, List.drop_drop]
    · rw [if_neg he]
      have hlt : start + size < text.length := by
        rcases Nat.lt_or_ge (start + size) text.length with h | h
        · exact h
        · exact absurd (Nat.min_eq_right h) he
      have hmin : min (start + size) text.length = start + size :=
        Nat.min_eq_left (Nat.le_of_lt hlt)
      rw [hmin]
      have hstart' : start + size - olap < text.length := by omega
      have hfuel' : text.length - (start + size - olap) ≤ fuel := by omega
      rw [List.map_cons, List.flatten_cons, ih _ hstart' hfuel']
      have h1' : start + size - start = size := by omega
      have h2' : start + size - olap + olap = start + size := by omega
      rw [h1', h2']
      rw [List.drop_take, List.drop_drop]
      have h4' : text.drop (start + size)
          = (text.drop (start + olap)).drop (size - olap) := by
        rw [List.drop_drop]
        congr 1
        omega
      rw [h4', List.take_append_drop]

theorem chunkAux_getLast (text : Text) (size olap : Nat)
    (hsize : 0 < size) (holap : olap < size) :
    ∀ fuel start, start < text.length → text.length - start ≤ fuel →
      ∃ s, start ≤ s ∧ s < text.length ∧
        (chunkAux text size olap fuel start).getLast? = some (text.drop s) := by
  intro fuel
  induction fuel with
  | zero => intro start h1 h2; omega
  | succ fuel ih =>
    intro start h1 h2
    simp only [chunkAux, if_pos h1]
    by_cases he : min (start + size) text.length = text.length
    · refine ⟨start, Nat.le_refl _, h1, ?_⟩
      rw [if_pos he]
      have hpiece : (text.drop start).take (min (start + size) text.length - start)
          = text.drop start := by
        apply List.take_of_length_le
        simp
        omega
      rw [hpiece]
      rfl
    · rw [if_neg he]
      have hlt : start + size < text.length := by
        rcases Nat.lt_or_ge (start + size) text.length with h | h
        · exact h
        · exact absurd (Nat.min_eq_right h) he
      have hmin : min (start + size) text.length = start + size :=
        Nat.min_eq_left (Nat.le_of_lt hlt)
      rw [hmin]
      have hstart' : start + size - olap < text.length := by omega
      have hfuel' : text.length - (start + size - olap) ≤ fuel := by omega
      obtain ⟨s, hs1, hs2, hs3⟩ := ih (start + size - olap) hstart' hfuel'
      refine ⟨s, by omega, hs2, ?_⟩
      rw [getLast?_cons_ne_nil _ (chunkAux_ne_nil text size olap fuel _ hstart' hfuel')]
      exact hs3

theorem chunkAux_length_le (text : Text) (size olap : Nat) (hsize : 0 < size) :
    ∀ fuel start, ∀ c ∈ chunkAux text size olap fuel start,
      c ≠ [] ∧ c.length ≤ size := by
  intro fuel
  induction fuel with
  | zero => intro start c hc; simp [chunkAux] at hc
  | succ fuel ih =>
    intro start c hc
    by_cases h1 : start < text.length
    · simp only [chunkAux, if_pos h1] at hc
      have hpiece : ((text.drop start).take (min (start + size) text.length - start)).length
          = min (start + size) text.length - start := by
        simp
        omega
      by_cases he : min (start + size) text.length = text.length
      · simp only [if_pos he] at hc
        simp only [List.mem_singleton] at hc
        subst hc
        constructor
        · intro hnil
          rw [hnil] at hpiece
          simp at hpiece
          omega
        · rw [hpiece]; omega
      · simp only [if_neg he, List.mem_cons] at hc
        rcases hc with hc | hc
        · subst hc
          constructor
          · intro hnil
            rw [hnil] at hpiece
            simp at hpiece
            omega
          · rw [hpiece]; omega
        · exact ih _ c hc
    · simp [chunkAux, if_neg h1] at hc

theorem chunkAux_dropLast_length (text : Text) (size olap : Nat)
    (hsize : 0 < size) (holap : olap < size) :
    ∀ fuel start, text.length - start ≤ fuel →
      ∀ c ∈ (chunkAux text size olap fuel start).dropLast, c.length = size := by
  intro fuel
  induction fuel with
  | zero => intro start h2 c hc; simp [chunkAux] at hc
  | succ fuel ih =>
    intro start h2 c hc
    by_cases h1 : start < text.length
    · simp only [chunkAux, if_pos h1] at hc
      by_cases he : min (start + size) text.length = text.length
      · rw [if_pos he] at hc
        simp at hc
      · rw [if_neg he] at hc
        have hlt : start + size < text.length := by
          rcases Nat.lt_or_ge (start + size) text.length with h | h
          · exact h
          · exact absurd (Nat.min_eq_right h) he
        have hmin : min (start + size) text.length = start + size :=
          Nat.min_eq_left (Nat.le_of_lt hlt)
        rw [hmin] at hc
        have hstart' : start + size - olap < text.length := by omega
        have hfuel' : text.length - (start + size - olap) ≤ fuel := by omega
        have hrest := chunkAux_ne_nil text size olap fuel (start + size - olap)
          hstart' hfuel'
        rw [dropLast_cons_ne_nil _ hrest, List.mem_cons] at hc
        rcases hc with hc | hc
        · subst hc
          simp
          omega
        · exact ih _ hfuel' c hc
    · simp [chunkAux, if_neg h1] at hc

theorem chunkAux_reassemble (text : Text) (n o : Nat)
    (hn : 0 < n) (ho : o < n) (fuel start : Nat)
    (h1 : start < text.length) (h2 : text.length - start ≤ fuel) :
    reassemble o (chunkAux text n o fuel start) = text.drop start := by
  cases fuel with
  | zero => omega
  | succ fuel =>
    simp only [chunkAux, if_pos h1]
    by_cases he : min (start + n) text.length = text.length
    · rw [if_pos he]
      have hpiece : (text.drop start).take (min (start + n) text.length - start)
          = text.drop start := by
        apply List.take_of_length_le
        simp
        omega
      rw [hpiece]
      simp [reassemble]
    · rw [if_neg he]
      have hlt : start + n < text.length := by
        rcases Nat.lt_or_ge (start + n) text.length with h | h
        · exact h
        · exact absurd (Nat.min_eq_right h) he
      have hmin : min (start + n) text.length = start + n :=
        Nat.min_eq_left (Nat.le_of_lt hlt)
      rw [hmin]
      have hstart' : start + n - o < text.length := by omega
      have hfuel' : text.length - (start + n - o) ≤ fuel := by omega
      simp only [reassemble]
      rw [chunkAux_flatten_drop text n o hn ho fuel _ hstart' hfuel']
      have h2' : start + n - o + o = start + n := by omega
      have h1' : start + n - start = n := by omega
      rw [h2', h1']
      have h4' : text.drop (start + n) = (text.drop start).drop n := by
        rw [List.drop_drop]
      rw [h4', List.take_append_drop]

theorem chunkCore_reassemble (text : Text) (n o : Nat)
    (hne : text ≠ []) (hn : 0 < n) (ho : o < n) :
    reassemble o (chunkCore text n o) = text := by
  have hL : 0 < text.length := List.length_pos.mpr hne
  have h := chunkAux_reassemble text n o hn ho (text.length + 1) 0 hL (by omega)
  rwa [List.drop_zero] at h

/-! ### Claim theorems about `chunk_text` -/

/-- C1 counterexample: at the empty text with valid parameters
(`size = 4 > 0`, `0 ≤ overlap = 1 < 4`), `chunk_text` returns the empty
sequence, so the claimed "non-empty ordered sequence" (with a last piece
ending at `L`) does not exist.  The claim as stated is false for `T = ""`. -/
theorem chunk_text_empty_yields_no_pieces :
    ¬ ∃ cs : List Text, chunk_text ([] : Text) 4 1 = Except.ok cs ∧ cs ≠ [] := by
  intro h
  obtain ⟨cs, hok, hne⟩ := h
  have h0 : chunk_text ([] : Text) 4 1 = Except.ok [] := rfl
  rw [h0] at hok
  injection hok with h1
  exact hne h1.symm

/-- C1 (amended to non-empty texts): for every non-empty text `T` of length
`L`, every `size > 0` and every `0 ≤ overlap < size`, `chunk_text` succeeds
with a non-empty ordered sequence of pieces such that concatenating the
pieces while dropping the leading `overlap` characters of every piece after
the first exactly reconstructs `T`, and the last piece is a suffix
`T[s:]` of `T`, i.e. its end index `s + len(T[s:])` equals `L`. -/
theorem chunk_text_reconstructs (text : Text) (size olap : Int)
    (hne : text ≠ []) (hsize : 0 < size) (holap : 0 ≤ olap) (hlt : olap < size) :
    ∃ cs, chunk_text text size olap = Except.ok cs ∧ cs ≠ [] ∧
      reassemble olap.toNat cs = text ∧
      ∃ s, s ≤ text.length ∧ cs.getLast? = some (text.drop s) ∧
        s + (text.drop s).length = text.length := by
  have hL : 0 < text.length := List.length_pos.mpr hne
  have hn : 0 < size.toNat := by omega
  have ho : olap.toNat < size.toNat := by omega
  refine ⟨chunkCore text size.toNat olap.toNat, ?_, ?_, ?_, ?_⟩
  · unfold chunk_text
    rw [if_neg (by omega), if_neg (by omega)]
  · exact chunkAux_ne_nil text size.toNat olap.toNat (text.length + 1) 0 hL (by omega)
  · exact chunkCore_reassemble text size.toNat olap.toNat hne hn ho
  · obtain ⟨s, _, hs2, hs3⟩ :=
      chunkAux_getLast text size.toNat olap.toNat hn ho (text.length + 1) 0 hL (by omega)
    exact ⟨s, Nat.le_of_lt hs2, hs3, by simp; omega⟩

/-- Witness for C1 at `T = "abcdefghij"`, `size = 4`, `overlap = 1`. -/
theorem chunk_text_reconstructs_witness :
    (['a','b','c','d','e','f','g','h','i','j'] : Text) ≠ [] ∧
    ∃ cs, chunk_text ['a','b','c','d','e','f','g','h','i','j'] 4 1 = Except.ok cs ∧
      cs ≠ [] ∧ reassemble (1 : Int).toNat cs = ['a','b','c','d','e','f','g','h','i','j'] ∧
      ∃ s, s ≤ (['a','b','c','d','e','f','g','h','i','j'] : Text).length ∧
        cs.getLast? = some ((['a','b','c','d','e','f','g','h','i','j'] : Text).drop s) ∧
        s + ((['a','b','c','d','e','f','g','h','i','j'] : Text).drop s).length
          = (['a','b','c','d','e','f','g','h','i','j'] : Text).length :=
  ⟨by decide,
   chunk_text_reconstructs ['a','b','c','d','e','f','g','h','i','j'] 4 1
     (by decide) (by decide) (by decide) (by decide)⟩

/-- C8: for every text, `size > 0` and `0 ≤ overlap < size`, every piece
produced by `chunk_text` is a non-empty string of length at most `size`, and
every piece except the last has length exactly `size`. -/
theorem chunk_text_piece_lengths (text : Text) (size olap : Int)
    (hsize : 0 < size) (holap : 0 ≤ olap) (hlt : olap < size) :
    ∃ cs, chunk_text text size olap = Except.ok cs ∧
      (∀ c ∈ cs, c ≠ [] ∧ c.length ≤ size.toNat) ∧
      (∀ c ∈ cs.dropLast, c.length = size.toNat) := by
  have hn : 0 < size.toNat := by omega
  have ho : olap.toNat < size.toNat := by omega
  refine ⟨chunkCore text size.toNat olap.toNat, ?_, ?_, ?_⟩
  · unfold chunk_text
    rw [if_neg (by omega), if_neg (by omega)]
  · exact fun c hc => chunkAux_length_le text size.toNat olap.toNat hn _ _ c hc
  · exact fun c hc =>
      chunkAux_dropLast_length text size.toNat olap.toNat hn ho _ 0 (by omega) c hc

/-- Witness for C8 at `T = "abcde"`, `size = 2`, `overlap = 1`. -/
theorem chunk_text_piece_lengths_witness :
    (0 : Int) < 2 ∧
    ∃ cs, chunk_text ['a','b','c','d','e'] 2 1 = Except.ok cs ∧
      (∀ c ∈ cs, c ≠ [] ∧ c.length ≤ (2 : Int).toNat) ∧
      (∀ c ∈ cs.dropLast, c.length = (2 : Int).toNat) :=
  ⟨by decide,
   chunk_text_piece_lengths ['a','b','c','d','e'] 2 1 (by decide) (by decide) (by decide)⟩

/-- Sanity check: the worked example of spec §4.4/§8 evaluates as stated. -/
theorem chunk_text_worked_example :
    chunk_text ['a','b','c','d','e','f','g','h','i','j'] 4 1
      = Except.ok [['a','b','c','d'], ['d','e','f','g'], ['g','h','i','j']] ∧
    chunk_text ['a','b','c','d','e','f','g','h','i','j'] 4 0
      = Except.ok [['a','b','c','d'], ['e','f','g','h'], ['i','j']] := by
  constructor <;> rfl

/-! ### Text/log streaming path (server.py 789-822)

The `.txt`/`.log` branch reads the file line by line (`f.readline()`),
appends each line to a buffer, emits the whole buffer as one chunk whenever
`len(buffer) >= chunk_size`, then resets the buffer to `buffer[-overlap:]`
(or `""` when `overlap <= 0`); at end of file a non-empty buffer is emitted
as one final chunk. -/

/-- Split a text into the lines Python `readline` yields: every line keeps
its trailing newline; a final line without a newline is also yielded. -/
def splitLines : Text → List Text
  | [] => []
  | c :: rest =>
    if c = '\n' then ['\n'] :: splitLines rest
    else
      match splitLines rest with
      | [] => [[c]]
      | l :: ls => (c :: l) :: ls

/-- Python `buffer[-n:]` for `n > 0`: the trailing `n` characters. -/
def takeLast (n : Nat) (l : Text) : Text := l.drop (l.length - n)

/-- The `while True` readline loop of the text/log branch, reduced to the
sequence of emitted chunk payloads. -/
def streamGo (size olap : Int) : List Text → Text → List Text
  | [], buf => if buf = [] then [] else [buf]
  | line :: rest, buf =>
    let buf2 := buf ++ line
    if (buf2.length : Int) ≥ size then
      buf2 :: streamGo size olap rest
        (if olap > 0 then takeLast olap.toNat buf2 else [])
    else
      streamGo size olap rest buf2

/-- Payload sequence emitted by the text/log streaming path of
`chroma_add_documents_from_files` on a file with the given content. -/
def streamTxtFile (content : Text) (size olap : Int) : List Text :=
  streamGo size olap (splitLines content) []

theorem splitLines_flatten : ∀ l : Text, (splitLines l).flatten = l := by
  intro l
  induction l with
  | nil => rfl
  | cons c rest ih =>
    by_cases h : c = '\n'
    · subst h
      simp [splitLines, ih]
    · simp only [splitLines, if_neg h]
      cases hs : splitLines rest with
      | nil =>
        rw [hs] at ih
        simp at ih
        simp [← ih]
      | cons l ls =>
        rw [hs] at ih
        simp only [List.flatten_cons] at ih ⊢
        rw [List.cons_append, ih]

theorem reset_eq_takeLast (olap : Nat) (b : Text) :
    (if (olap : Int) > 0 then takeLast (olap : Int).toNat b else []) = takeLast olap b := by
  by_cases h0 : olap = 0
  · subst h0
    simp [takeLast]
  · rw [if_pos (by exact_mod_cast Nat.pos_of_ne_zero h0)]
    simp

theorem takeLast_length (n : Nat) (l : Text) (h : n ≤ l.length) :
    (takeLast n l).length = n := by
  simp [takeLast]
  omega

theorem drop_takeLast (olap : Nat) (b : Text) (h : olap ≤ b.length) (x : Text) :
    (takeLast olap b ++ x).drop olap = x := by
  have hlen : (takeLast olap b).length = olap := takeLast_length olap b h
  rw [List.drop_append_of_le_length (by omega)]
  have hnil : (takeLast olap b).drop olap = [] := by
    apply List.drop_eq_nil_of_le
    omega
  rw [hnil, List.nil_append]

theorem streamGo_flatten_drop (size olap : Nat) (ho : olap < size) :
    ∀ (lines : List Text) (buf : Text),
      ((streamGo (size : Int) (olap : Int) lines buf).map (List.drop olap)).flatten
        = (buf ++ lines.flatten).drop olap := by
  intro lines
  induction lines with
  | nil =>
    intro buf
    by_cases hb : buf = []
    · subst hb
      simp [streamGo]
    · simp [streamGo, if_neg hb]
  | cons line rest ih =>
    intro buf
    simp only [streamGo]
    by_cases hc : ((buf ++ line).length : Int) ≥ (size : Int)
    · rw [if_pos hc, reset_eq_takeLast]
      have hlen : size ≤ (buf ++ line).length := by exact_mod_cast hc
      rw [List.map_cons, List.flatten_cons, ih]
      rw [drop_takeLast olap (buf ++ line) (by omega)]
      have hsplit : ((buf ++ line) ++ rest.flatten).drop olap
          = (buf ++ line).drop olap ++ rest.flatten :=
        List.drop_append_of_le_length (by omega)
      rw [List.flatten_cons, ← List.append_assoc, hsplit]
    · rw [if_neg hc, ih]
      rw [List.flatten_cons, List.append_assoc]

theorem streamGo_reassemble (size olap : Nat) (ho : olap < size) :
    ∀ (lines : List Text) (buf : Text),
      reassemble olap (streamGo (size : Int) (olap : Int) lines buf)
        = buf ++ lines.flatten := by
  intro lines
  induction lines with
  | nil =>
    intro buf
    by_cases hb : buf = []
    · subst hb
      simp [streamGo, reassemble]
    · simp [streamGo, if_neg hb, reassemble]
  | cons line rest ih =>
    intro buf
    simp only [streamGo]
    by_cases hc : ((buf ++ line).length : Int) ≥ (size : Int)
    · rw [if_pos hc, reset_eq_takeLast]
      have hlen : size ≤ (buf ++ line).length := by exact_mod_cast hc
      simp only [reassemble]
      rw [streamGo_flatten_drop size olap ho]
      rw [drop_takeLast olap (buf ++ line) (by omega)]
      rw [List.flatten_cons, List.append_assoc]
    · rw [if_neg hc, ih]
      rw [List.flatten_cons, List.append_assoc]

/-- C4 counterexample: on the one-line file `"abcdefghij\n"` with
`size = 4`, `overlap = 1`, the streaming path emits the whole (oversized)
line as its first chunk and `"\n"` as a final chunk, while `chunk_text`
cuts exact 4-character windows — the two sequences differ. -/
theorem stream_differs_from_chunk :
    streamTxtFile ['a','b','c','d','e','f','g','h','i','j','\n'] 4 1
      = [['a','b','c','d','e','f','g','h','i','j','\n'], ['\n']] ∧
    chunk_text ['a','b','c','d','e','f','g','h','i','j','\n'] 4 1
      = Except.ok [['a','b','c','d'], ['d','e','f','g'], ['g','h','i','j'], ['j','\n']] ∧
    Except.ok (streamTxtFile ['a','b','c','d','e','f','g','h','i','j','\n'] 4 1)
      ≠ chunk_text ['a','b','c','d','e','f','g','h','i','j','\n'] 4 1 := by
  refine ⟨rfl, rfl, ?_⟩
  intro h
  have hchunk : chunk_text ['a','b','c','d','e','f','g','h','i','j','\n'] 4 1
      = Except.ok [['a','b','c','d'], ['d','e','f','g'], ['g','h','i','j'], ['j','\n']] := rfl
  have h2 := h.trans hchunk
  injection h2 with h3
  exact absurd h3 (by decide)

/-- C4 (amended): the text/log streaming path is not equal to
`chunk_text` in general (it emits at line granularity, so a chunk may
exceed `chunk_size`); what does hold for every content and every
`overlap < size` is the same reconstruction property as §4.4:
concatenating the emitted payloads while dropping the leading `overlap`
characters of every payload after the first exactly reconstructs the file
content. -/
theorem streamTxtFile_reconstructs (content : Text) (size olap : Nat)
    (ho : olap < size) :
    reassemble olap (streamTxtFile content (size : Int) (olap : Int)) = content := by
  unfold streamTxtFile
  rw [streamGo_reassemble size olap ho (splitLines content) []]
  rw [List.nil_append, splitLines_flatten]

/-- Witness for C4 (amended) at content `"ab\ncd\n"`, `size = 3`,
`overlap = 1`. -/
theorem streamTxtFile_reconstructs_witness :
    1 < 3 ∧
    reassemble 1 (streamTxtFile ['a','b','\n','c','d','\n'] ((3 : Nat) : Int) ((1 : Nat) : Int))
      = ['a','b','\n','c','d','\n'] :=
  ⟨by decide, streamTxtFile_reconstructs ['a','b','\n','c','d','\n'] 3 1 (by decide)⟩

/-! ### The target collection (external collaborator, spec §6)

Modelled from the spec: the Chroma collection is external to this
repository.  A collection is a list of (id, document) records;
`collection.get(include=[])["ids"]` returns the ids, `collection.add`
appends fresh records, and `collection.update` replaces the documents of
ids already present while silently ignoring absent ids. -/

structure Store where
  recs : List (String × String)
deriving DecidableEq

def Store.ids (s : Store) : List String := s.recs.map Prod.fst

def Store.count (s : Store) : Nat := s.recs.length

/-! ### chroma_add_documents (server.py 346-410) -/

/-- Python `not id.strip()`: true iff the id consists only of whitespace
(in particular for the empty string). -/
def whitespaceOnly (s : String) : Bool := s.toList.all Char.isWhitespace

/-- `chroma_add_documents`: four eager validations, then the duplicate-id
check against `collection.get(include=[])["ids"]`, and only then
`collection.add`.  The call returns the resulting collection paired with
its outcome; every error branch returns the collection unchanged because
each check precedes the store's add operation. -/
def chroma_add_documents (documents ids : List String) (st : Store) :
    Store × Except String Unit :=
  if documents = [] then
    (st, .error "The documents list cannot be empty.")
  else if ids = [] then
    (st, .error "The ids list is required and cannot be empty.")
  else if ids.any whitespaceOnly then
    (st, .error "IDs cannot be empty strings.")
  else if ids.length ≠ documents.length then
    (st, .error "Number of ids must match number of documents.")
  else if ids.filter (fun i => st.ids.contains i) ≠ [] then
    (st, .error "The following IDs already exist in the collection.")
  else
    ({ recs := st.recs ++ ids.zip documents }, .ok ())

/-- `chroma_update_documents`, restricted to the arguments the ingestion
path passes (ids plus optional documents; metadata carries no ids or
document text).  `collection.update` replaces the documents of ids already
present and silently ignores absent ids (spec §6). -/
def chroma_update_documents (ids : List String) (documents : Option (List String))
    (st : Store) : Store × Except String Unit :=
  if ids = [] then
    (st, .error "The ids list cannot be empty.")
  else
    match documents with
    | none =>
      (st, .error "At least one of embeddings, metadatas, or documents must be provided.")
    | some ds =>
      if ds.length ≠ ids.length then
        (st, .error "Length of documents list must match length of ids list.")
      else
        ({ recs := st.recs.map (fun r =>
            match (ids.zip ds).lookup r.1 with
            | some d => (r.1, d)
            | none => r) }, .ok ())

/-! ### extract_archive (server.py 831-867) -/

/-- Outcome of the source's archive-type detection chain: zip signature,
tar signature, `.rar` extension, `.7z` extension, or none of these. -/
inductive ArchiveKind
  | zip
  | tar
  | rarFile
  | sevenZ
  | other

inductive ArchiveError
  | oversize
  | unsupported
deriving DecidableEq

/-- `extract_archive`: reject the archive when its byte size strictly
exceeds `15 * 1024 * 1024`, then dispatch on the detected kind and return
the extracted (flattened) file list; an undetected kind raises
"Unsupported archive type".  `sizeBytes` abstracts `os.path.getsize` and
`entries` the flattened extraction output. -/
def extract_archive (sizeBytes : Nat) (kind : ArchiveKind) (entries : List String) :
    Except ArchiveError (List String) :=
  if sizeBytes > 15 * 1024 * 1024 then .error .oversize
  else
    match kind with
    | .zip => .ok entries
    | .tar => .ok entries
    | .rarFile => .ok entries
    | .sevenZ => .ok entries
    | .other => .error .unsupported

/-! ### CSV row ids (server.py 744-759) -/

/-- Successive batches of `k` rows, as `pd.read_csv(..., chunksize=k)`
yields them (the last batch may be shorter). -/
def groupsOf {α : Type} (k : Nat) : List α → List (List α)
  | [] => []
  | x :: xs => (x :: xs).take k :: groupsOf k (xs.drop (k - 1))
termination_by l => l.length
decreasing_by
  simp only [List.length_cons, List.length_drop]
  omega

/-- Ids the code assigns to one pandas chunk of `n` surviving rows:
`f"{stem}_row_{i}" for i in range(len(text_data))` — the row index within
the CHUNK. -/
def csvChunkIds (stem : String) (n : Nat) : List String :=
  (List.range n).map (fun i => stem ++ "_row_" ++ toString i)

/-- Ids assigned across one whole CSV file by
`chroma_add_documents_from_files`: indices restart at 0 in every 1000-row
pandas chunk. -/
def csvFileIds (stem : String) (rows : List String) : List String :=
  ((groupsOf 1000 rows).map (fun c => csvChunkIds stem c.length)).flatten

/-! ### Path suffix and stem (`pathlib.Path(...).suffix` / `.stem`) -/

/-- Characters after the last `/` of a path: the file's base name. -/
def baseName (p : String) : Text :=
  (p.toList.reverse.takeWhile (fun c => c ≠ '/')).reverse

/-- `pathlib.Path(p).suffix.lower()`: the final `".ext"`, lower-cased, when
the base name contains a dot at a position other than 0; `""` otherwise. -/
def suffixLower (p : String) : String :=
  let name := baseName p
  let tailRev := name.reverse.takeWhile (fun c => c ≠ '.')
  if tailRev.length + 1 < name.length then
    String.mk (('.' :: tailRev.reverse).map Char.toLower)
  else ""

/-- `pathlib.Path(p).stem`: the base name without its final suffix. -/
def stemOf (p : String) : String :=
  let name := baseName p
  let tailRev := name.reverse.takeWhile (fun c => c ≠ '.')
  if tailRev.length + 1 < name.length then
    String.mk (name.take (name.length - tailRev.length - 1))
  else String.mk name

/-! ### chroma_add_documents_from_files (server.py 687-826) -/

/-- A file as the pipeline sees it: its resolved path, its decoded text
content (consumed by the `.txt`/`.log` branch), and the per-row text blobs
its CSV parse yields (consumed by the `.csv` branch).  The pandas step
`select_dtypes(include=["object"]).astype(str).agg(" ".join, axis=1)` is a
pure function of the file bytes; `rows` carries its output directly so the
embedding does not re-model the pandas CSV parser. -/
structure FileEntry where
  path : String
  text : Text
  rows : List String

/-- One element of `file_or_dir_paths` after resolving it against the
filesystem: a regular (non-archive) file, a directory together with the
files `rglob("*")` finds beneath it, a file with an archive suffix
(carrying its byte size and the extraction outcome), or a path resolving
to nothing. -/
inductive InputPath
  | file (f : FileEntry)
  | dir (files : List FileEntry)
  | archive (path : String) (sizeBytes : Nat)
      (extraction : Except String (List FileEntry))
  | missing

/-- State of the discovery loop (server.py 716-735): the accumulated
candidate files (`all_files`) and the scratch directories created so far
(`temp_dirs`), named by creation index. -/
structure Discovered where
  files : List FileEntry
  tempDirs : List Nat

/-- One iteration of the discovery loop.  An archive whose size exceeds
`15 * 1024 * 1024` bytes is skipped (`continue`) before any
`TemporaryDirectory` is created; otherwise a scratch directory is created
first, and an extraction failure is printed and swallowed while the
scratch directory stays registered for cleanup. -/
def discoverStep (acc : Discovered) (p : InputPath) : Discovered :=
  match p with
  | .archive _ sizeBytes extraction =>
    if sizeBytes > 15 * 1024 * 1024 then acc
    else
      let acc2 : Discovered :=
        { acc with tempDirs := acc.tempDirs ++ [acc.tempDirs.length] }
      match extraction with
      | .ok fs => { acc2 with files := acc2.files ++ fs }
      | .error _ => acc2
  | .file f => { acc with files := acc.files ++ [f] }
  | .dir fs => { acc with files := acc.files ++ fs }
  | .missing => acc

def discover (inputs : List InputPath) : Discovered :=
  inputs.foldl discoverStep ⟨[], []⟩

/-- Oracle deciding whether the n-th remote store write of the call raises
(modelling a remote insert/update failure in a later phase). -/
abbrev FailOracle := Nat → Bool

/-- The oracle under which every remote store write succeeds. -/
def noFail : FailOracle := fun _ => false

/-- An `await chroma_add_documents(...)` performed by the ingestion loop:
the `tick`-th store write, which either raises per the oracle or runs the
validated add. -/
def callAdd (fail : FailOracle) (tick : Nat) (documents ids : List String)
    (st : Store) : Except String (Store × Nat) :=
  if fail tick then .error "remote add failed"
  else
    match chroma_add_documents documents ids st with
    | (st2, .ok _) => .ok (st2, tick + 1)
    | (_, .error e) => .error e

/-- An `await chroma_update_documents(...)` performed by the ingestion
loop. -/
def callUpdate (fail : FailOracle) (tick : Nat) (ids : List String)
    (documents : Option (List String)) (st : Store) :
    Except String (Store × Nat) :=
  if fail tick then .error "remote update failed"
  else
    match chroma_update_documents ids documents st with
    | (st2, .ok _) => .ok (st2, tick + 1)
    | (_, .error e) => .error e

/-- The per-chunk loop of the `.txt`/`.log` branch: each chunk id
`f"{stem}_chunk_{i}"` is routed to update when it is in the
`existing_txt_ids_set` snapshot taken before the file was opened, and to
add (counting towards `total_added`) otherwise.  State: store, added
count, write tick. -/
def runTxtChunks (stem : String) (snapshot : List String) (fail : FailOracle) :
    List (Nat × Text) → Store → Nat → Nat → Except String (Store × Nat × Nat)
  | [], st, added, tick => .ok (st, added, tick)
  | (i, c) :: rest, st, added, tick =>
    let cid := stem ++ "_chunk_" ++ toString i
    if snapshot.contains cid then
      match callUpdate fail tick [cid] (some [String.mk c]) st with
      | .ok (st2, tick2) => runTxtChunks stem snapshot fail rest st2 added tick2
      | .error e => .error e
    else
      match callAdd fail tick [String.mk c] [cid] st with
      | .ok (st2, tick2) => runTxtChunks stem snapshot fail rest st2 (added + 1) tick2
      | .error e => .error e

/-- The `.txt`/`.log` branch for one file: snapshot the existing ids once,
then stream the file's chunks in order.  (The source interleaves chunk
production with the store writes; chunk production never reads the store,
so the emitted payload sequence is `streamTxtFile` of the content.) -/
def processTxt (size olap : Int) (fail : FailOracle) (f : FileEntry)
    (st : Store) (tick : Nat) : Except String (Store × Nat × Nat) :=
  runTxtChunks (stemOf f.path) st.ids fail
    (streamTxtFile f.text size olap).enum st 0 tick

/-- The records of one pandas chunk: within-chunk ids zipped with the row
blobs. -/
def csvChunkPairs (stem : String) (blobs : List String) : List (String × String) :=
  (csvChunkIds stem blobs.length).zip blobs

/-- Second half of one sub-batch of the `.csv` branch: the
`if update_docs:` update call, then the batch's contribution
(`len(new_docs)`, passed in as `nwLen`) to `total_added`. -/
def reconcileFinish (fail : FailOracle) (upd : List (String × String))
    (nwLen : Nat) (st2 : Store) (tick2 : Nat) :
    Except String (Store × Nat × Nat) :=
  match (if upd.isEmpty then .ok (st2, tick2)
         else callUpdate fail tick2 (upd.map Prod.fst)
           (some (upd.map Prod.snd)) st2 : Except String (Store × Nat)) with
  | .error e => .error e
  | .ok (st3, tick3) => .ok (st3, nwLen, tick3)

/-- One sub-batch (at most `BATCH_SIZE = 5000` records) of the `.csv`
branch: re-fetch the existing-ids snapshot, partition the batch into new
and existing ids, then add the new records (`if new_docs:`) and update the
existing ones. -/
def reconcileBatch (fail : FailOracle) (batch : List (String × String))
    (st : Store) (tick : Nat) : Except String (Store × Nat × Nat) :=
  let existing := st.ids
  let nw := batch.filter (fun b => !(existing.contains b.1))
  let upd := batch.filter (fun b => existing.contains b.1)
  match (if nw.isEmpty then .ok (st, tick)
         else callAdd fail tick (nw.map Prod.snd) (nw.map Prod.fst) st :
           Except String (Store × Nat)) with
  | .error e => .error e
  | .ok (st2, tick2) => reconcileFinish fail upd nw.length st2 tick2

/-- The `for i in range(0, len(text_data), BATCH_SIZE)` loop over the
sub-batches of one pandas chunk. -/
def runBatches (fail : FailOracle) :
    List (List (String × String)) → Store → Nat → Nat →
      Except String (Store × Nat × Nat)
  | [], st, added, tick => .ok (st, added, tick)
  | b :: bs, st, added, tick =>
    match reconcileBatch fail b st tick with
    | .ok (st2, a2, tick2) => runBatches fail bs st2 (added + a2) tick2
    | .error e => .error e

/-- The `for chunk in pd.read_csv(...)` loop of the `.csv` branch; a chunk
with no text data is skipped (`continue`). -/
def runCsvChunks (stem : String) (fail : FailOracle) :
    List (List String) → Store → Nat → Nat → Except String (Store × Nat × Nat)
  | [], st, added, tick => .ok (st, added, tick)
  | blobs :: rest, st, added, tick =>
    if blobs.isEmpty then runCsvChunks stem fail rest st added tick
    else
      match runBatches fail (groupsOf 5000 (csvChunkPairs stem blobs)) st 0 tick with
      | .ok (st2, a2, tick2) => runCsvChunks stem fail rest st2 (added + a2) tick2
      | .error e => .error e

/-- The `.csv` branch for one file. -/
def processCsv (fail : FailOracle) (f : FileEntry) (st : Store) (tick : Nat) :
    Except String (Store × Nat × Nat) :=
  runCsvChunks (stemOf f.path) fail (groupsOf 1000 f.rows) st 0 tick

/-- Per-file dispatch: `.csv` goes to the CSV streamer, everything else
that survived the vectorizable filter (`.txt`/`.log`) to the text
streamer. -/
def processFile (size olap : Int) (fail : FailOracle) (f : FileEntry)
    (st : Store) (tick : Nat) : Except String (Store × Nat × Nat) :=
  if suffixLower f.path = ".csv" then processCsv fail f st tick
  else processTxt size olap fail f st tick

/-- The `for file_path in vectorizable` loop. -/
def runFiles (size olap : Int) (fail : FailOracle) :
    List FileEntry → Store → Nat → Nat → Except String (Store × Nat × Nat)
  | [], st, added, tick => .ok (st, added, tick)
  | f :: fs, st, added, tick =>
    match processFile size olap fail f st tick with
    | .ok (st2, a2, tick2) => runFiles size olap fail fs st2 (added + a2) tick2
    | .error e => .error e

def vectorizableExts : List String := [".csv", ".txt", ".log"]

/-- The `try` body of `chroma_add_documents_from_files`: discovery
(including archive handling), the vectorizable filter with its
no-input fatal error, and the per-file streaming/reconciliation loop.
Returns the outcome together with the scratch directories created. -/
def ingestBody (inputs : List InputPath) (size olap : Int) (fail : FailOracle)
    (st : Store) : Except String (Store × Nat) × List Nat :=
  let d := discover inputs
  let vec := d.files.filter (fun f => vectorizableExts.contains (suffixLower f.path))
  if vec.isEmpty then
    (.error "No .csv, .txt, or .log files found in provided paths or extracted archives.",
     d.tempDirs)
  else
    match runFiles size olap fail vec st 0 0 with
    | .ok (st2, added, _) => (.ok (st2, added), d.tempDirs)
    | .error e => (.error e, d.tempDirs)

/-- `chroma_add_documents_from_files` with its `try/finally`: the body runs
to an outcome, then the `finally` loop calls `cleanup()` on every
registered scratch directory.  Result: (outcome, scratch dirs created,
scratch dirs still alive after the finally loop). -/
def ingestFiles (inputs : List InputPath) (size olap : Int) (fail : FailOracle)
    (st : Store) : Except String (Store × Nat) × List Nat × List Nat :=
  let body := ingestBody inputs size olap fail st
  (body.1, body.2, body.2.foldl (fun live d => live.erase d) body.2)

/-! ### Claim theorems about the archive size cap -/

/-- C6: `extract_archive` raises the oversize error iff the archive's byte
size strictly exceeds `15 * 1024 * 1024`; in particular an archive of
exactly `15 * 1024 * 1024` bytes is never rejected for size and one of
`15 * 1024 * 1024 + 1` bytes is. -/
theorem extract_archive_oversize_iff (sizeBytes : Nat) (kind : ArchiveKind)
    (entries : List String) :
    (extract_archive sizeBytes kind entries = Except.error ArchiveError.oversize
       ↔ sizeBytes > 15 * 1024 * 1024) ∧
    extract_archive (15 * 1024 * 1024) kind entries
      ≠ Except.error ArchiveError.oversize ∧
    extract_archive (15 * 1024 * 1024 + 1) kind entries
      = Except.error ArchiveError.oversize := by
  refine ⟨⟨?_, ?_⟩, ?_, ?_⟩
  · intro h
    by_cases hgt : sizeBytes > 15 * 1024 * 1024
    · exact hgt
    · unfold extract_archive at h
      rw [if_neg hgt] at h
      cases kind <;> simp at h
  · intro h
    unfold extract_archive
    rw [if_pos h]
  · intro h
    unfold extract_archive at h
    rw [if_neg (by omega)] at h
    cases kind <;> simp at h
  · unfold extract_archive
    rw [if_pos (by omega)]

/-! ### Claim theorems about scratch-directory cleanup and skipping -/

theorem foldl_erase_self {α : Type} [DecidableEq α] :
    ∀ l : List α, l.foldl (fun live d => live.erase d) l = []
  | [] => rfl
  | x :: xs => by
    rw [List.foldl_cons, List.erase_cons_head]
    exact foldl_erase_self xs

/-- C7: on every exit path of `chroma_add_documents_from_files` — normal
completion, the early NoVectorizableInput error, or a remote store write
raising in a later phase (any oracle) — the `finally` loop releases every
scratch directory created during the call, so none survives it. -/
theorem ingestFiles_cleans_all_tempdirs (inputs : List InputPath)
    (size olap : Int) (fail : FailOracle) (st : Store) :
    (ingestFiles inputs size olap fail st).2.2 = [] :=
  foldl_erase_self _

/-- C10: an input archive whose size strictly exceeds `15 * 1024 * 1024`
bytes is skipped before extraction: the whole call behaves exactly as if
the archive were absent — no scratch directory is created for it, no error
is raised on its account, and it contributes no candidate files. -/
theorem oversize_archive_contributes_nothing (pre post : List InputPath)
    (p : String) (sizeBytes : Nat) (extraction : Except String (List FileEntry))
    (h : sizeBytes > 15 * 1024 * 1024) (size olap : Int) (fail : FailOracle)
    (st : Store) :
    ingestFiles (pre ++ InputPath.archive p sizeBytes extraction :: post)
        size olap fail st
      = ingestFiles (pre ++ post) size olap fail st := by
  have hstep : ∀ acc : Discovered,
      discoverStep acc (InputPath.archive p sizeBytes extraction) = acc := by
    intro acc
    simp [discoverStep, h]
  have hdisc : discover (pre ++ InputPath.archive p sizeBytes extraction :: post)
      = discover (pre ++ post) := by
    unfold discover
    rw [List.foldl_append, List.foldl_append, List.foldl_cons, hstep]
  unfold ingestFiles ingestBody
  rw [hdisc]

/-- Witness for C10 at a single oversized `.zip` input. -/
theorem oversize_archive_contributes_nothing_witness :
    15 * 1024 * 1024 + 1 > 15 * 1024 * 1024 ∧
    ingestFiles ([] ++ InputPath.archive "big.zip" (15 * 1024 * 1024 + 1)
          (Except.ok []) :: []) 2000 200 noFail ⟨[]⟩
      = ingestFiles ([] ++ []) 2000 200 noFail ⟨[]⟩ :=
  ⟨by omega,
   oversize_archive_contributes_nothing [] [] "big.zip" (15 * 1024 * 1024 + 1)
     (Except.ok []) (by omega) 2000 200 noFail ⟨[]⟩⟩

/-! ### Claim theorems about chunk-parameter validation -/

/-- C5 counterexample: a `chroma_add_documents_from_files` call with
`chunk_size = 0` (and `overlap = 0`) does NOT fail: it proceeds through
file I/O, emits one whole-line chunk, and modifies the store.  No
chunk-parameter validation exists on this path (the validated `chunk_text`
is never called by it). -/
theorem ingest_accepts_invalid_chunk_params :
    (ingestFiles [InputPath.file ⟨"a.txt", ['a','b'], []⟩] 0 0 noFail ⟨[]⟩).1
      = Except.ok (⟨[("a_chunk_0", "ab")]⟩, 1) := rfl

/-- C5 (amended): the chunk-parameter validation lives in `chunk_text`
alone, which rejects `chunk_size ≤ 0` or `overlap < 0` before producing
any chunk; `chroma_add_documents_from_files` performs no such validation
and a call with invalid parameters proceeds (see the counterexample). -/
theorem chunk_text_rejects_invalid_params (text : Text) (size olap : Int)
    (h : size ≤ 0 ∨ olap < 0) :
    ∃ e, chunk_text text size olap = Except.error e := by
  unfold chunk_text
  by_cases h1 : size ≤ 0
  · rw [if_pos h1]
    exact ⟨_, rfl⟩
  · rw [if_neg h1]
    rw [if_pos (h.resolve_left h1)]
    exact ⟨_, rfl⟩

/-- Witness for C5 (amended) at `chunk_size = 0`. -/
theorem chunk_text_rejects_invalid_params_witness :
    ((0 : Int) ≤ 0 ∨ (0 : Int) < 0) ∧
    ∃ e, chunk_text ['a'] 0 0 = Except.error e :=
  ⟨Or.inl le_rfl, chunk_text_rejects_invalid_params ['a'] 0 0 (Or.inl le_rfl)⟩

/-! ### Claim theorem about chroma_add_documents validation -/

/-- C9: whenever the documents list is empty, the ids list is empty, some
id is whitespace-only, the lengths differ, or some id is already present
in the collection, `chroma_add_documents` raises and leaves the collection
unchanged — every such check precedes the store's add operation. -/
theorem chroma_add_documents_validates (documents ids : List String) (st : Store)
    (h : documents = [] ∨ ids = [] ∨ (∃ i ∈ ids, whitespaceOnly i) ∨
         ids.length ≠ documents.length ∨ ∃ i ∈ ids, i ∈ st.ids) :
    (chroma_add_documents documents ids st).1 = st ∧
    ∃ e, (chroma_add_documents documents ids st).2 = Except.error e := by
  unfold chroma_add_documents
  split_ifs with h1 h2 h3 h4 h5
  · exact ⟨rfl, _, rfl⟩
  · exact ⟨rfl, _, rfl⟩
  · exact ⟨rfl, _, rfl⟩
  · exact ⟨rfl, _, rfl⟩
  · exact ⟨rfl, _, rfl⟩
  · exfalso
    rcases h with h | h | ⟨i, hi, hw⟩ | h | ⟨i, hi, hmem⟩
    · exact h1 h
    · exact h2 h
    · exact h3 (List.any_eq_true.mpr ⟨i, hi, hw⟩)
    · exact h4 h
    · apply h5
      intro hfil
      have hni := List.filter_eq_nil_iff.mp hfil i hi
      simp at hni
      exact hni hmem

/-- Witness for C9: adding an id that already exists in the collection. -/
theorem chroma_add_documents_validates_witness :
    (["y"] = ([] : List String) ∨ ["a"] = ([] : List String) ∨
     (∃ i ∈ ["a"], whitespaceOnly i) ∨
     (["a"] : List String).length ≠ (["y"] : List String).length ∨
     ∃ i ∈ ["a"], i ∈ Store.ids ⟨[("a", "x")]⟩) ∧
    ((chroma_add_documents ["y"] ["a"] ⟨[("a", "x")]⟩).1 = ⟨[("a", "x")]⟩ ∧
     ∃ e, (chroma_add_documents ["y"] ["a"] ⟨[("a", "x")]⟩).2 = Except.error e) :=
  ⟨by decide, chroma_add_documents_validates ["y"] ["a"] ⟨[("a", "x")]⟩ (by decide)⟩

/-! ### Claim theorem about CSV row ids (the per-chunk index restart) -/

theorem groupsOf_eq_cons {α : Type} (k : Nat) (hk : 0 < k) (l : List α)
    (hl : l ≠ []) :
    groupsOf k l = l.take k :: groupsOf k (l.drop k) := by
  cases l with
  | nil => exact absurd rfl hl
  | cons x xs =>
    rw [groupsOf]
    have hdrop : xs.drop (k - 1) = (x :: xs).drop k := by
      cases k with
      | zero => omega
      | succ m => simp
    rw [hdrop]

theorem groupsOf_nil {α : Type} (k : Nat) : groupsOf k ([] : List α) = [] := by
  rw [groupsOf]

theorem groupsOf_of_length_le {α : Type} (k : Nat) (l : List α) (h0 : l ≠ [])
    (h : l.length ≤ k) : groupsOf k l = [l] := by
  cases l with
  | nil => exact absurd rfl h0
  | cons x xs =>
    rw [groupsOf]
    have h1 : (x :: xs).take k = x :: xs := List.take_of_length_le h
    have h2 : xs.drop (k - 1) = [] := by
      apply List.drop_eq_nil_of_le
      simp at h ⊢
      omega
    rw [h1, h2, groupsOf_nil]

theorem groupsOf_1000_replicate_1001 :
    groupsOf 1000 (List.replicate 1001 "x")
      = [List.replicate 1000 "x", List.replicate 1 "x"] := by
  rw [groupsOf_eq_cons 1000 (by omega) _
    (List.length_pos.mp (by rw [List.length_replicate]; omega))]
  rw [List.take_replicate, List.drop_replicate]
  norm_num
  exact groupsOf_of_length_le 1000 ["x"] (by simp) (by simp)

/-- C2 at the failing input: a CSV file with 1001 surviving rows (stem
"data").  The code restarts the row index in every 1000-row pandas chunk,
so position 1000 of the id sequence carries `"data_row_0"` again — the id
of row 0 — instead of the claimed unique whole-file index
`"data_row_1000"`. -/
theorem csv_row_ids_repeat_across_chunks :
    csvFileIds "data" (List.replicate 1001 "x")
      = csvChunkIds "data" 1000 ++ csvChunkIds "data" 1 ∧
    (csvFileIds "data" (List.replicate 1001 "x")).length = 1001 ∧
    (csvFileIds "data" (List.replicate 1001 "x")).get? 0 = some "data_row_0" ∧
    (csvFileIds "data" (List.replicate 1001 "x")).get? 1000 = some "data_row_0" ∧
    "data_row_0" ≠ "data_row_1000" := by
  have hlen0 : (csvChunkIds "data" 1000).length = 1000 := by
    simp only [csvChunkIds, List.length_map, List.length_range]
  have hfile : csvFileIds "data" (List.replicate 1001 "x")
      = csvChunkIds "data" 1000 ++ csvChunkIds "data" 1 := by
    unfold csvFileIds
    rw [groupsOf_1000_replicate_1001]
    simp only [List.map_cons, List.map_nil, List.flatten_cons, List.flatten_nil,
      List.append_nil, List.length_replicate]
  refine ⟨hfile, ?_, ?_, ?_, by decide⟩
  · rw [hfile, List.length_append, hlen0]
    simp only [csvChunkIds, List.length_map, List.length_range]
  · rw [hfile, List.get?_append (by omega)]
    unfold csvChunkIds
    rw [List.get?_map, List.get?_range (by omega)]
    rfl
  · rw [hfile, List.get?_append_right (by omega), hlen0]
    unfold csvChunkIds
    rw [List.get?_map, List.get?_range (by omega)]
    rfl

/-! ### Lemmas about the store operations (towards idempotent re-ingestion) -/

theorem add_ok_ids (documents ids : List String) (st st2 : Store) (u : Unit)
    (h : chroma_add_documents documents ids st = (st2, Except.ok u)) :
    st2.ids = st.ids ++ ids := by
  unfold chroma_add_documents at h
  split_ifs at h with h1 h2 h3 h4 h5
  · simp at h
  · simp at h
  · simp at h
  · simp at h
  · simp at h
  · injection h with hfst hsnd
    rw [← hfst]
    have h4' : ids.length ≤ documents.length := by omega
    simp only [Store.ids, List.map_append]
    rw [List.map_fst_zip ids documents h4']

theorem update_ok_ids (ids : List String) (documents : Option (List String))
    (st st2 : Store) (u : Unit)
    (h : chroma_update_documents ids documents st = (st2, Except.ok u)) :
    st2.ids = st.ids ∧ st2.count = st.count := by
  unfold chroma_update_documents at h
  split_ifs at h with h1
  · simp at h
  · cases documents with
    | none => simp at h
    | some ds =>
      simp only at h
      split_ifs at h with h2
      · simp at h
      · injection h with hfst hsnd
        rw [← hfst]
        constructor
        · simp only [Store.ids, List.map_map]
          apply List.map_congr_left
          intro r _
          simp only [Function.comp_apply]
          cases h3 : List.lookup r.1 (ids.zip ds) <;> simp [h3]
        · simp [Store.count]

theorem update_some_succeeds (ids ds : List String) (st : Store)
    (hne : ids ≠ []) (hlen : ds.length = ids.length) :
    ∃ st2, chroma_update_documents ids (some ds) st = (st2, Except.ok ()) ∧
      st2.ids = st.ids ∧ st2.count = st.count := by
  have hres : chroma_update_documents ids (some ds) st
      = (⟨st.recs.map (fun r =>
          match (ids.zip ds).lookup r.1 with
          | some d => (r.1, d)
          | none => r)⟩, Except.ok ()) := by
    simp only [chroma_update_documents]
    rw [if_neg hne, if_neg (by omega)]
  obtain ⟨hids, hcount⟩ := update_ok_ids ids (some ds) st _ () hres
  exact ⟨_, hres, hids, hcount⟩

theorem callAdd_noFail_eq (tick : Nat) (documents ids : List String) (st : Store) :
    callAdd noFail tick documents ids st
      = match chroma_add_documents documents ids st with
        | (st2, .ok _) => .ok (st2, tick + 1)
        | (_, .error e) => .error e := rfl

theorem callUpdate_noFail_eq (tick : Nat) (ids : List String)
    (documents : Option (List String)) (st : Store) :
    callUpdate noFail tick ids documents st
      = match chroma_update_documents ids documents st with
        | (st2, .ok _) => .ok (st2, tick + 1)
        | (_, .error e) => .error e := rfl

theorem callAdd_noFail_ok (tick : Nat) (documents ids : List String)
    (st st2 : Store) (t2 : Nat)
    (h : callAdd noFail tick documents ids st = .ok (st2, t2)) :
    st2.ids = st.ids ++ ids := by
  rw [callAdd_noFail_eq] at h
  cases hc : chroma_add_documents documents ids st with
  | mk a b =>
    rw [hc] at h
    cases b with
    | ok u =>
      simp at h
      exact h.1 ▸ add_ok_ids documents ids st a u hc
    | error e => simp at h

theorem callUpdate_noFail_ok (tick : Nat) (ids : List String)
    (documents : Option (List String)) (st st2 : Store) (t2 : Nat)
    (h : callUpdate noFail tick ids documents st = .ok (st2, t2)) :
    st2.ids = st.ids ∧ st2.count = st.count := by
  rw [callUpdate_noFail_eq] at h
  cases hc : chroma_update_documents ids documents st with
  | mk a b =>
    rw [hc] at h
    cases b with
    | ok u =>
      simp at h
      exact h.1 ▸ update_ok_ids ids documents st a u hc
    | error e => simp at h

/-! ### Idempotency of the text branch -/

theorem runTxtChunks_mono (stem : String) (snapshot : List String) :
    ∀ (pairs : List (Nat × Text)) (st : Store) (added tick : Nat)
      (st' : Store) (a' t' : Nat),
      runTxtChunks stem snapshot noFail pairs st added tick = .ok (st', a', t') →
      ∀ x ∈ st.ids, x ∈ st'.ids := by
  intro pairs
  induction pairs with
  | nil =>
    intro st added tick st' a' t' h x hx
    simp only [runTxtChunks] at h
    simp at h
    exact h.1 ▸ hx
  | cons p rest ih =>
    intro st added tick st' a' t' h x hx
    obtain ⟨i, c⟩ := p
    simp only [runTxtChunks] at h
    by_cases hm : snapshot.contains (stem ++ "_chunk_" ++ toString i)
    · rw [if_pos hm] at h
      cases hcall : callUpdate noFail tick [stem ++ "_chunk_" ++ toString i]
          (some [String.mk c]) st with
      | error e => rw [hcall] at h; simp at h
      | ok val =>
        obtain ⟨st2, tick2⟩ := val
        rw [hcall] at h
        have hids := (callUpdate_noFail_ok _ _ _ _ _ _ hcall).1
        exact ih st2 added tick2 st' a' t' h x (hids ▸ hx)
    · rw [if_neg hm] at h
      cases hcall : callAdd noFail tick [String.mk c]
          [stem ++ "_chunk_" ++ toString i] st with
      | error e => rw [hcall] at h; simp at h
      | ok val =>
        obtain ⟨st2, tick2⟩ := val
        rw [hcall] at h
        have hids := callAdd_noFail_ok _ _ _ _ _ _ hcall
        exact ih st2 (added + 1) tick2 st' a' t' h x
          (by rw [hids]; exact List.mem_append_left _ hx)

theorem runTxtChunks_covers (stem : String) (snapshot : List String) :
    ∀ (pairs : List (Nat × Text)) (st : Store) (added tick : Nat)
      (st' : Store) (a' t' : Nat),
      (∀ x ∈ snapshot, x ∈ st.ids) →
      runTxtChunks stem snapshot noFail pairs st added tick = .ok (st', a', t') →
      ∀ p ∈ pairs, (stem ++ "_chunk_" ++ toString p.1) ∈ st'.ids := by
  intro pairs
  induction pairs with
  | nil =>
    intro st added tick st' a' t' hsnap h p hp
    simp at hp
  | cons q rest ih =>
    intro st added tick st' a' t' hsnap h p hp
    obtain ⟨i, c⟩ := q
    simp only [runTxtChunks] at h
    by_cases hm : snapshot.contains (stem ++ "_chunk_" ++ toString i)
    · rw [if_pos hm] at h
      cases hcall : callUpdate noFail tick [stem ++ "_chunk_" ++ toString i]
          (some [String.mk c]) st with
      | error e => rw [hcall] at h; simp at h
      | ok val =>
        obtain ⟨st2, tick2⟩ := val
        rw [hcall] at h
        have hids := (callUpdate_noFail_ok _ _ _ _ _ _ hcall).1
        rcases List.mem_cons.mp hp with hp | hp
        · subst hp
          have hmem : (stem ++ "_chunk_" ++ toString i) ∈ st.ids := by
            apply hsnap
            simpa using hm
          exact runTxtChunks_mono stem snapshot rest st2 added tick2 st' a' t' h _
            (hids ▸ hmem)
        · exact ih st2 added tick2 st' a' t'
            (fun x hx => hids ▸ hsnap x hx) h p hp
    · rw [if_neg hm] at h
      cases hcall : callAdd noFail tick [String.mk c]
          [stem ++ "_chunk_" ++ toString i] st with
      | error e => rw [hcall] at h; simp at h
      | ok val =>
        obtain ⟨st2, tick2⟩ := val
        rw [hcall] at h
        have hids := callAdd_noFail_ok _ _ _ _ _ _ hcall
        rcases List.mem_cons.mp hp with hp | hp
        · subst hp
          have hmem : (stem ++ "_chunk_" ++ toString i) ∈ st2.ids := by
            rw [hids]
            exact List.mem_append_right _ (by simp)
          exact runTxtChunks_mono stem snapshot rest st2 (added + 1) tick2 st' a' t'
            h _ hmem
        · exact ih st2 (added + 1) tick2 st' a' t'
            (fun x hx => by rw [hids]; exact List.mem_append_left _ (hsnap x hx))
            h p hp

theorem runTxtChunks_all_present (stem : String) (snapshot : List String) :
    ∀ (pairs : List (Nat × Text)) (st : Store) (added tick : Nat),
      (∀ p ∈ pairs, (stem ++ "_chunk_" ++ toString p.1) ∈ snapshot) →
      ∃ st' t', runTxtChunks stem snapshot noFail pairs st added tick
          = .ok (st', added, t') ∧ st'.ids = st.ids ∧ st'.count = st.count := by
  intro pairs
  induction pairs with
  | nil =>
    intro st added tick _
    exact ⟨st, tick, rfl, rfl, rfl⟩
  | cons q rest ih =>
    intro st added tick hall
    obtain ⟨i, c⟩ := q
    have hm : snapshot.contains (stem ++ "_chunk_" ++ toString i) = true := by
      have := hall (i, c) (List.mem_cons_self _ _)
      simpa using this
    obtain ⟨st2, hupd, hids, hcount⟩ :=
      update_some_succeeds [stem ++ "_chunk_" ++ toString i] [String.mk c] st
        (by simp) (by simp)
    obtain ⟨st', t', hrun, hids', hcount'⟩ :=
      ih st2 added (tick + 1) (fun p hp => hall p (List.mem_cons_of_mem _ hp))
    refine ⟨st', t', ?_, by rw [hids', hids], by rw [hcount', hcount]⟩
    simp only [runTxtChunks]
    rw [if_pos hm, callUpdate_noFail_eq, hupd]
    exact hrun

/-! ### Idempotency of the CSV branch -/

theorem groupsOf_flatten {α : Type} (k : Nat) (hk : 0 < k) :
    ∀ (n : Nat) (l : List α), l.length ≤ n → (groupsOf k l).flatten = l := by
  intro n
  induction n with
  | zero =>
    intro l hl
    have hnil : l = [] := by
      cases l with
      | nil => rfl
      | cons x xs => simp at hl
    subst hnil
    rw [groupsOf_nil]
    rfl
  | succ n ih =>
    intro l hl
    cases l with
    | nil =>
      rw [groupsOf_nil]
      rfl
    | cons x xs =>
      rw [groupsOf_eq_cons k hk _ (by simp)]
      rw [List.flatten_cons, ih ((x :: xs).drop k)
        (by simp only [List.length_drop, List.length_cons] at hl ⊢; omega)]
      exact List.take_append_drop k (x :: xs)

theorem mem_groupsOf {α : Type} (k : Nat) (hk : 0 < k) (l : List α) (x : α)
    (hx : x ∈ l) : ∃ g ∈ groupsOf k l, x ∈ g := by
  have := groupsOf_flatten k hk l.length l (Nat.le_refl _)
  rw [← this] at hx
  exact List.mem_flatten.mp hx

theorem reconcileFinish_ok (upd : List (String × String)) (nwLen : Nat)
    (st2 : Store) (tick2 : Nat) (st' : Store) (a' t' : Nat)
    (h : reconcileFinish noFail upd nwLen st2 tick2 = .ok (st', a', t')) :
    st'.ids = st2.ids ∧ st'.count = st2.count ∧ a' = nwLen := by
  unfold reconcileFinish at h
  by_cases hupd : upd.isEmpty
  · rw [if_pos hupd] at h
    simp at h
    obtain ⟨h1, h2, h3⟩ := h
    subst h1
    exact ⟨rfl, rfl, h2.symm⟩
  · rw [if_neg hupd] at h
    cases hcall : callUpdate noFail tick2 (upd.map Prod.fst)
        (some (upd.map Prod.snd)) st2 with
    | error e => rw [hcall] at h; simp at h
    | ok v =>
      obtain ⟨st3, t3⟩ := v
      rw [hcall] at h
      simp at h
      obtain ⟨h1, h2, h3⟩ := h
      subst h1
      obtain ⟨hids, hcount⟩ := callUpdate_noFail_ok _ _ _ _ _ _ hcall
      exact ⟨hids, hcount, h2.symm⟩

theorem reconcileFinish_succeeds (upd : List (String × String)) (nwLen : Nat)
    (st2 : Store) (tick2 : Nat) :
    ∃ st3 t3, reconcileFinish noFail upd nwLen st2 tick2 = .ok (st3, nwLen, t3) ∧
      st3.ids = st2.ids ∧ st3.count = st2.count := by
  unfold reconcileFinish
  by_cases hupd : upd.isEmpty
  · rw [if_pos hupd]
    exact ⟨st2, tick2, rfl, rfl, rfl⟩
  · rw [if_neg hupd]
    obtain ⟨st3, hu, hids, hcount⟩ :=
      update_some_succeeds (upd.map Prod.fst) (upd.map Prod.snd) st2
        (by
          intro hmap
          apply hupd
          rw [List.map_eq_nil] at hmap
          simp [hmap])
        (by simp)
    rw [callUpdate_noFail_eq, hu]
    exact ⟨st3, tick2 + 1, rfl, hids, hcount⟩

theorem reconcileBatch_all_present (batch : List (String × String)) (st : Store)
    (tick : Nat) (hall : ∀ b ∈ batch, b.1 ∈ st.ids) :
    ∃ st' t', reconcileBatch noFail batch st tick = .ok (st', 0, t') ∧
      st'.ids = st.ids ∧ st'.count = st.count := by
  have hnw : batch.filter (fun b => !(st.ids.contains b.1)) = [] := by
    apply List.filter_eq_nil_iff.mpr
    intro b hb
    simp
    exact hall b hb
  obtain ⟨st3, t3, hfin, hids, hcount⟩ :=
    reconcileFinish_succeeds (batch.filter (fun b => st.ids.contains b.1)) 0 st tick
  refine ⟨st3, t3, ?_, hids, hcount⟩
  simp only [reconcileBatch]
  rw [hnw]
  exact hfin

theorem reconcileBatch_ok_super (batch : List (String × String)) (st : Store)
    (tick : Nat) (st' : Store) (a' t' : Nat)
    (h : reconcileBatch noFail batch st tick = .ok (st', a', t')) :
    (∀ x ∈ st.ids, x ∈ st'.ids) ∧ (∀ b ∈ batch, b.1 ∈ st'.ids) := by
  have hcov0 : ∀ st2 : Store, st2.ids = st.ids ++
        (batch.filter (fun b => !(st.ids.contains b.1))).map Prod.fst →
      (∀ x ∈ st.ids, x ∈ st2.ids) ∧ (∀ b ∈ batch, b.1 ∈ st2.ids) := by
    intro st2 hids
    constructor
    · intro x hx
      rw [hids]
      exact List.mem_append_left _ hx
    · intro b hb
      rw [hids]
      by_cases hc : st.ids.contains b.1
      · exact List.mem_append_left _ (by simpa using hc)
      · apply List.mem_append_right
        apply List.mem_map_of_mem
        rw [List.mem_filter]
        exact ⟨hb, by simpa using hc⟩
  simp only [reconcileBatch] at h
  cases hs1 : (if (batch.filter (fun b => !(st.ids.contains b.1))).isEmpty
      then (Except.ok (st, tick) : Except String (Store × Nat))
      else callAdd noFail tick
        ((batch.filter (fun b => !(st.ids.contains b.1))).map Prod.snd)
        ((batch.filter (fun b => !(st.ids.contains b.1))).map Prod.fst) st) with
  | error e =>
    rw [hs1] at h
    simp at h
  | ok v =>
    obtain ⟨st2, tick2⟩ := v
    rw [hs1] at h
    have hfin := reconcileFinish_ok
      (batch.filter (fun b => st.ids.contains b.1))
      (batch.filter (fun b => !(st.ids.contains b.1))).length st2 tick2 st' a' t' h
    have hids2 : st2.ids = st.ids ++
        (batch.filter (fun b => !(st.ids.contains b.1))).map Prod.fst := by
      by_cases hnw : (batch.filter (fun b => !(st.ids.contains b.1))).isEmpty
      · rw [if_pos hnw] at hs1
        have hnil : batch.filter (fun b => !(st.ids.contains b.1)) = [] := by
          simpa using hnw
        simp at hs1
        rw [← hs1.1, hnil]
        simp
      · rw [if_neg hnw] at hs1
        exact callAdd_noFail_ok _ _ _ _ _ _ hs1
    have hbase := hcov0 st2 hids2
    exact ⟨fun x hx => hfin.1 ▸ hbase.1 x hx, fun b hb => hfin.1 ▸ hbase.2 b hb⟩

theorem runBatches_ok_super :
    ∀ (bs : List (List (String × String))) (st : Store) (added tick : Nat)
      (st' : Store) (a' t' : Nat),
      runBatches noFail bs st added tick = .ok (st', a', t') →
      (∀ x ∈ st.ids, x ∈ st'.ids) ∧ (∀ b ∈ bs, ∀ p ∈ b, p.1 ∈ st'.ids) := by
  intro bs
  induction bs with
  | nil =>
    intro st added tick st' a' t' h
    simp only [runBatches] at h
    simp at h
    exact ⟨fun x hx => h.1 ▸ hx, fun b hb => by simp at hb⟩
  | cons b bs ih =>
    intro st added tick st' a' t' h
    simp only [runBatches] at h
    cases hrec : reconcileBatch noFail b st tick with
    | error e => rw [hrec] at h; simp at h
    | ok val =>
      obtain ⟨st2, a2, t2⟩ := val
      rw [hrec] at h
      obtain ⟨hmono2, hcov2⟩ := ih st2 (added + a2) t2 st' a' t' h
      obtain ⟨hmono1, hcov1⟩ := reconcileBatch_ok_super b st tick st2 a2 t2 hrec
      refine ⟨fun x hx => hmono2 x (hmono1 x hx), ?_⟩
      intro g hg p hp
      rcases List.mem_cons.mp hg with hg | hg
      · subst hg
        exact hmono2 _ (hcov1 p hp)
      · exact hcov2 g hg p hp

theorem runBatches_all_present :
    ∀ (bs : List (List (String × String))) (st : Store) (added tick : Nat),
      (∀ b ∈ bs, ∀ p ∈ b, p.1 ∈ st.ids) →
      ∃ st' t', runBatches noFail bs st added tick = .ok (st', added, t') ∧
        st'.ids = st.ids ∧ st'.count = st.count := by
  intro bs
  induction bs with
  | nil =>
    intro st added tick _
    exact ⟨st, tick, rfl, rfl, rfl⟩
  | cons b bs ih =>
    intro st added tick hall
    obtain ⟨st2, t2, hrec, hids2, hcount2⟩ :=
      reconcileBatch_all_present b st tick (hall b (List.mem_cons_self _ _))
    obtain ⟨st', t', hrun, hids', hcount'⟩ :=
      ih st2 (added + 0) t2
        (fun g hg p hp => hids2 ▸ hall g (List.mem_cons_of_mem _ hg) p hp)
    refine ⟨st', t', ?_, by rw [hids', hids2], by rw [hcount', hcount2]⟩
    simp only [runBatches]
    rw [hrec]
    simpa using hrun

theorem runCsvChunks_ok_super (stem : String) :
    ∀ (chunks : List (List String)) (st : Store) (added tick : Nat)
      (st' : Store) (a' t' : Nat),
      runCsvChunks stem noFail chunks st added tick = .ok (st', a', t') →
      (∀ x ∈ st.ids, x ∈ st'.ids) ∧
      (∀ blobs ∈ chunks, ∀ p ∈ csvChunkPairs stem blobs, p.1 ∈ st'.ids) := by
  intro chunks
  induction chunks with
  | nil =>
    intro st added tick st' a' t' h
    simp only [runCsvChunks] at h
    simp at h
    exact ⟨fun x hx => h.1 ▸ hx, fun blobs hb => by simp at hb⟩
  | cons blobs rest ih =>
    intro st added tick st' a' t' h
    simp only [runCsvChunks] at h
    by_cases hbe : blobs.isEmpty
    · rw [if_pos hbe] at h
      obtain ⟨hmono, hcov⟩ := ih st added tick st' a' t' h
      refine ⟨hmono, ?_⟩
      intro g hg p hp
      rcases List.mem_cons.mp hg with hg | hg
      · subst hg
        have hgnil : g = [] := by simpa using hbe
        subst hgnil
        simp [csvChunkPairs, csvChunkIds] at hp
      · exact hcov g hg p hp
    · rw [if_neg hbe] at h
      cases hrb : runBatches noFail (groupsOf 5000 (csvChunkPairs stem blobs)) st 0 tick with
      | error e => rw [hrb] at h; simp at h
      | ok val =>
        obtain ⟨st2, a2, t2⟩ := val
        rw [hrb] at h
        obtain ⟨hmono2, hcov2⟩ := ih st2 (added + a2) t2 st' a' t' h
        obtain ⟨hmono1, hcov1⟩ :=
          runBatches_ok_super (groupsOf 5000 (csvChunkPairs stem blobs)) st 0 tick
            st2 a2 t2 hrb
        refine ⟨fun x hx => hmono2 x (hmono1 x hx), ?_⟩
        intro g hg p hp
        rcases List.mem_cons.mp hg with hg | hg
        · subst hg
          obtain ⟨grp, hgrp, hpg⟩ := mem_groupsOf 5000 (by omega) _ p hp
          exact hmono2 _ (hcov1 grp hgrp p hpg)
        · exact hcov2 g hg p hp

theorem runCsvChunks_all_present (stem : String) :
    ∀ (chunks : List (List String)) (st : Store) (added tick : Nat),
      (∀ blobs ∈ chunks, ∀ p ∈ csvChunkPairs stem blobs, p.1 ∈ st.ids) →
      ∃ st' t', runCsvChunks stem noFail chunks st added tick
          = .ok (st', added, t') ∧ st'.ids = st.ids ∧ st'.count = st.count := by
  intro chunks
  induction chunks with
  | nil =>
    intro st added tick _
    exact ⟨st, tick, rfl, rfl, rfl⟩
  | cons blobs rest ih =>
    intro st added tick hall
    by_cases hbe : blobs.isEmpty
    · obtain ⟨st', t', hrun, hids', hcount'⟩ :=
        ih st added tick (fun g hg => hall g (List.mem_cons_of_mem _ hg))
      refine ⟨st', t', ?_, hids', hcount'⟩
      simp only [runCsvChunks]
      rw [if_pos hbe]
      exact hrun
    · obtain ⟨st2, t2, hrb, hids2, hcount2⟩ :=
        runBatches_all_present (groupsOf 5000 (csvChunkPairs stem blobs)) st 0 tick
          (fun g hg p hp => by
            apply hall blobs (List.mem_cons_self _ _) p
            have := groupsOf_flatten 5000 (by omega)
              (csvChunkPairs stem blobs).length (csvChunkPairs stem blobs)
              (Nat.le_refl _)
            rw [← this]
            exact List.mem_flatten.mpr ⟨g, hg, hp⟩)
      obtain ⟨st', t', hrun, hids', hcount'⟩ :=
        ih st2 (added + 0) t2
          (fun g hg p hp => hids2 ▸ hall g (List.mem_cons_of_mem _ hg) p hp)
      refine ⟨st', t', ?_, by rw [hids', hids2], by rw [hcount', hcount2]⟩
      simp only [runCsvChunks]
      rw [if_neg hbe, hrb]
      simpa using hrun

theorem processCsv_twice (f : FileEntry) (st st1 : Store) (tick a1 t1 : Nat)
    (h1 : processCsv noFail f st tick = .ok (st1, a1, t1)) (tick2 : Nat) :
    ∃ st2 t2, processCsv noFail f st1 tick2 = .ok (st2, 0, t2) ∧
      st2.ids = st1.ids ∧ st2.count = st1.count := by
  unfold processCsv at h1 ⊢
  have hcov := (runCsvChunks_ok_super (stemOf f.path) (groupsOf 1000 f.rows)
    st 0 tick st1 a1 t1 h1).2
  obtain ⟨st2, t2, hrun, hids, hcount⟩ :=
    runCsvChunks_all_present (stemOf f.path) (groupsOf 1000 f.rows) st1 0 tick2
      (fun g hg p hp => hcov g hg p hp)
  exact ⟨st2, t2, hrun, hids, hcount⟩

theorem processTxt_twice (size olap : Int) (f : FileEntry) (st st1 : Store)
    (tick a1 t1 : Nat)
    (h1 : processTxt size olap noFail f st tick = .ok (st1, a1, t1)) (tick2 : Nat) :
    ∃ st2 t2, processTxt size olap noFail f st1 tick2 = .ok (st2, 0, t2) ∧
      st2.ids = st1.ids ∧ st2.count = st1.count := by
  unfold processTxt at h1 ⊢
  have hcov := runTxtChunks_covers (stemOf f.path) st.ids
    (streamTxtFile f.text size olap).enum st 0 tick st1 a1 t1
    (fun x hx => hx) h1
  obtain ⟨st2, t2, hrun, hids, hcount⟩ :=
    runTxtChunks_all_present (stemOf f.path) st1.ids
      (streamTxtFile f.text size olap).enum st1 0 tick2
      (fun p hp => hcov p hp)
  exact ⟨st2, t2, hrun, hids, hcount⟩

theorem processFile_twice (size olap : Int) (f : FileEntry) (st st1 : Store)
    (tick a1 t1 : Nat)
    (h1 : processFile size olap noFail f st tick = .ok (st1, a1, t1)) (tick2 : Nat) :
    ∃ st2 t2, processFile size olap noFail f st1 tick2 = .ok (st2, 0, t2) ∧
      st2.ids = st1.ids ∧ st2.count = st1.count := by
  unfold processFile at h1 ⊢
  by_cases hcsv : suffixLower f.path = ".csv"
  · rw [if_pos hcsv] at h1 ⊢
    exact processCsv_twice f st st1 tick a1 t1 h1 tick2
  · rw [if_neg hcsv] at h1 ⊢
    exact processTxt_twice size olap f st st1 tick a1 t1 h1 tick2

/-! ### The idempotent re-ingestion claim -/

theorem runFiles_single (size olap : Int) (f : FileEntry) (sty : Store) (tick : Nat) :
    runFiles size olap noFail [f] sty 0 tick
      = match processFile size olap noFail f sty tick with
        | .ok (st2, a2, t2) => .ok (st2, 0 + a2, t2)
        | .error e => .error e := rfl

/-- C3: re-ingesting one unchanged file with the same chunk parameters into
the store produced by a first successful `chroma_add_documents_from_files`
call succeeds, reports an added count of 0 (every record becomes an
update), and leaves the store's record count — and its id list — exactly
unchanged. -/
theorem ingest_twice_idempotent (f : FileEntry) (size olap : Int)
    (st st1 : Store) (n1 : Nat)
    (h1 : (ingestFiles [InputPath.file f] size olap noFail st).1
      = Except.ok (st1, n1)) :
    ∃ st2, (ingestFiles [InputPath.file f] size olap noFail st1).1
        = Except.ok (st2, 0) ∧
      st2.count = st1.count ∧ st2.ids = st1.ids := by
  have hd : discover [InputPath.file f] = ⟨[f], []⟩ := rfl
  by_cases hvec : vectorizableExts.contains (suffixLower f.path)
  · have hfil : [f].filter (fun g => vectorizableExts.contains (suffixLower g.path))
        = [f] := by
      rw [List.filter_cons, if_pos hvec, List.filter_nil]
    have hred : ∀ (stx : Store),
        (ingestFiles [InputPath.file f] size olap noFail stx).1
          = match runFiles size olap noFail [f] stx 0 0 with
            | .ok (st2, added, _) => .ok (st2, added)
            | .error e => .error e := by
      intro stx
      cases hrf : runFiles size olap noFail [f] stx 0 0 with
      | error e =>
        simp only [ingestFiles, ingestBody, hd, hfil, List.isEmpty_cons,
          Bool.false_eq_true, if_false, hrf]
      | ok v =>
        obtain ⟨stv, av, tv⟩ := v
        simp only [ingestFiles, ingestBody, hd, hfil, List.isEmpty_cons,
          Bool.false_eq_true, if_false, hrf]
    rw [hred st] at h1
    cases hrf1 : runFiles size olap noFail [f] st 0 0 with
    | error e => rw [hrf1] at h1; simp at h1
    | ok v =>
      obtain ⟨stA, aA, tA⟩ := v
      rw [hrf1] at h1
      simp at h1
      obtain ⟨hA, hA2⟩ := h1
      rw [runFiles_single] at hrf1
      cases hpf1 : processFile size olap noFail f st 0 with
      | error e => rw [hpf1] at hrf1; simp at hrf1
      | ok w =>
        obtain ⟨stB, aB, tB⟩ := w
        rw [hpf1] at hrf1
        simp at hrf1
        obtain ⟨hB, hB2, hB3⟩ := hrf1
        have hpf1b : processFile size olap noFail f st 0 = .ok (st1, aB, tB) := by
          rw [hpf1, hB, hA]
        obtain ⟨st2, t2, hpf2, hids, hcount⟩ :=
          processFile_twice size olap f st st1 0 aB tB hpf1b 0
        refine ⟨st2, ?_, hcount, hids⟩
        rw [hred st1, runFiles_single, hpf2]
  · have hfil : [f].filter (fun g => vectorizableExts.contains (suffixLower g.path))
        = [] := by
      rw [List.filter_cons, if_neg hvec, List.filter_nil]
    have : (ingestFiles [InputPath.file f] size olap noFail st).1
        = Except.error
          "No .csv, .txt, or .log files found in provided paths or extracted archives." := by
      simp only [ingestFiles, ingestBody, hd, hfil, List.isEmpty_nil, if_true]
    rw [this] at h1
    simp at h1

/-- Witness for C3: a one-line `.txt` file ingested twice with
`size = 4`, `overlap = 1` starting from the empty store. -/
theorem ingest_twice_idempotent_witness :
    (ingestFiles [InputPath.file ⟨"a.txt", ['a','b','\n'], []⟩] 4 1 noFail ⟨[]⟩).1
      = Except.ok (⟨[("a_chunk_0", "ab\n")]⟩, 1) ∧
    ∃ st2, (ingestFiles [InputPath.file ⟨"a.txt", ['a','b','\n'], []⟩] 4 1 noFail
          ⟨[("a_chunk_0", "ab\n")]⟩).1 = Except.ok (st2, 0) ∧
      st2.count = Store.count ⟨[("a_chunk_0", "ab\n")]⟩ ∧
      st2.ids = Store.ids ⟨[("a_chunk_0", "ab\n")]⟩ :=
  ⟨rfl, ingest_twice_idempotent ⟨"a.txt", ['a','b','\n'], []⟩ 4 1 ⟨[]⟩
    ⟨[("a_chunk_0", "ab\n")]⟩ 1 rfl⟩

end ChromaMcp
